import Mathlib

/-!
Verification development for the Mercury request engine.

The repository ships only documentation, configuration and release scripts;
the engine itself (parser, variable resolver, curl bridge, executor, cookie
jar, history store) is not part of the source tree. Every definition below
is therefore modelled from the specification's wording (and the feature
documentation in the repository), as a shallow embedding over `List Char`
strings, and the stated properties are settled against that model.
-/

set_option maxHeartbeats 1000000

namespace Mercury

/-! ### Basic character/string helpers -/

/-- Shorthand: the character list of a string literal. -/
def str (s : String) : List Char := s.toList

/-- The left-brace character. -/
def lb : Char := Char.ofNat 123

/-- The right-brace character. -/
def rb : Char := Char.ofNat 125

/-- The single-quote character. -/
def qs : Char := Char.ofNat 39

/-- Drop trailing whitespace. -/
def trimTrail (s : List Char) : List Char :=
  (s.reverse.dropWhile Char.isWhitespace).reverse

/-- Modelled from the spec: "surrounding whitespace trimmed" — drop leading
and trailing whitespace of a character list. -/
def trimChars (s : List Char) : List Char :=
  trimTrail (s.dropWhile Char.isWhitespace)

/-- Split a list at the first occurrence of character `c`; returns the part
before and the part after (separator removed), or `none` when absent. -/
def splitFirst (c : Char) : List Char → Option (List Char × List Char)
  | [] => none
  | x :: xs =>
    if x = c then some ([], xs)
    else
      match splitFirst c xs with
      | some p => some (x :: p.1, p.2)
      | none => none

/-- Split a character list into lines at `'\n'`; always returns at least one
(possibly empty) line. -/
def splitLines : List Char → List (List Char)
  | [] => [[]]
  | c :: cs =>
    if c = '\n' then [] :: splitLines cs
    else
      match splitLines cs with
      | l :: ls => (c :: l) :: ls
      | [] => [[c]]

/-- Join lines back with `'\n'`. -/
def joinLines : List (List Char) → List Char
  | [] => []
  | [l] => l
  | l :: ls => l ++ '\n' :: joinLines ls

/-- Strip a single trailing carriage return from a line (CRLF support). -/
def stripCR (l : List Char) : List Char :=
  if l.getLast? = some '\r' then l.dropLast else l

/-- Lower-case a name for case-insensitive header-name comparison. -/
def lowerName (s : List Char) : List Char := s.map Char.toLower

instance {ε α : Type} [DecidableEq ε] [DecidableEq α] : DecidableEq (Except ε α) :=
  fun a b =>
    match a, b with
    | .error e, .error f =>
      if h : e = f then .isTrue (congrArg Except.error h)
      else .isFalse (fun hh => h (Except.error.inj hh))
    | .error _, .ok _ => .isFalse (fun hh => Except.noConfusion hh)
    | .ok _, .error _ => .isFalse (fun hh => Except.noConfusion hh)
    | .ok x, .ok y =>
      if h : x = y then .isTrue (congrArg Except.ok h)
      else .isFalse (fun hh => h (Except.ok.inj hh))

/-! ### Data model -/

/-- Modelled from the spec (§3): a structured request. Headers are an
ordered list of name/value pairs; duplicates and insertion order are kept. -/
structure Request where
  method : List Char
  url : List Char
  headers : List (List Char × List Char)
  body : List Char
deriving DecidableEq, Repr

/-- Modelled from the spec (§3): a response snapshot. -/
structure HttpResponse where
  status : Nat
  headers : List (List Char × List Char)
  body : List Char
  durationMs : Nat
deriving DecidableEq, Repr

/-- Modelled from the spec (§3): a session cookie record. -/
structure CookieRecord where
  domain : List Char
  name : List Char
  value : List Char
deriving DecidableEq, Repr

/-- Outcome stored in a history entry: response snapshot or error text. -/
inductive HistoryOutcome where
  | success (resp : HttpResponse)
  | failure (message : List Char)
deriving DecidableEq, Repr

/-- Modelled from the spec (§3): one execution record. -/
structure HistoryEntry where
  timestamp : Nat
  request : Request
  outcome : HistoryOutcome
deriving DecidableEq, Repr

/-! ### EnvironmentStore (spec §4.2, §3 EnvironmentSet) -/

/-- A key/value environment mapping (insertion-ordered association list). -/
def EnvMap : Type := List (List Char × List Char)

instance : DecidableEq EnvMap := by unfold EnvMap; infer_instance

/-- Modelled from the spec: "Lookup is case-sensitive and exact-match" —
first binding wins in the built map. -/
def lookupEnv : EnvMap → List Char → Option (List Char)
  | [], _ => none
  | p :: ps, k => if p.1 = k then some p.2 else lookupEnv ps k

/-- Replace the binding of `k` if present, else append it. -/
def envInsert : EnvMap → List Char → List Char → EnvMap
  | [], k, v => [(k, v)]
  | p :: ps, k, v => if p.1 = k then (k, v) :: ps else p :: envInsert ps k v

/-- Modelled from the spec: "start from the base file's map; if a named
overlay is selected, copy its entries over the base map, key by key". -/
def buildActive (base : EnvMap) (overlay : EnvMap) : EnvMap :=
  overlay.foldl (fun m p => envInsert m p.1 p.2) base

/-- Modelled from the spec (§3): a base mapping plus zero or one overlay. -/
structure EnvironmentSet where
  base : EnvMap
  overlay : Option EnvMap

/-- The active mapping of an environment set. -/
def activeMap (E : EnvironmentSet) : EnvMap :=
  match E.overlay with
  | none => E.base
  | some o => buildActive E.base o

/-- The value a key ends up with after copying a file's entries in order:
the last binding in the list wins. -/
def lastLookup : EnvMap → List Char → Option (List Char)
  | [], _ => none
  | p :: ps, k =>
    match lastLookup ps k with
    | some v => some v
    | none => if p.1 = k then some p.2 else none

/-! ### VariableResolver (spec §4.3) -/

/-- Modelled from the spec: a token name character is "non-whitespace,
non-`}}`". -/
def validNameChar (c : Char) : Bool := ¬ c.isWhitespace ∧ c ≠ rb

/-- Scan for a variable name followed by `}}` at the head of the input;
returns the name and the remainder after the closing braces. -/
def scanName (cs : List Char) : Option (List Char × List Char) :=
  let name := cs.takeWhile validNameChar
  if name.isEmpty then none
  else
    match cs.drop name.length with
    | c1 :: c2 :: rest => if c1 = rb ∧ c2 = rb then some (name, rest) else none
    | _ => none

/-- Does a complete `{{name}}` token start at the head of the input? -/
def startsToken : List Char → Bool
  | a :: b :: r => if a = lb ∧ b = lb then (scanName r).isSome else false
  | _ => false

/-- Does the input contain a complete `{{name}}` token anywhere? -/
def containsToken : List Char → Bool
  | [] => false
  | c :: cs => startsToken (c :: cs) || containsToken cs

/-- Modelled from the spec: left-to-right single-pass scan replacing each
`{{name}}` by its bound value, leaving undefined tokens literal and
recording their names. Fuel-indexed so the definition is structural; fuel
exhaustion returns the input unchanged and is unreachable from
`resolveString`. -/
def resolveAux (env : EnvMap) : Nat → List Char → List Char × List (List Char)
  | 0, cs => (cs, [])
  | _ + 1, [] => ([], [])
  | fuel + 1, c1 :: cs =>
    if c1 = lb then
      match cs with
      | c2 :: cs2 =>
        if c2 = lb then
          match scanName cs2 with
          | some nr =>
            let p := resolveAux env fuel nr.2
            match lookupEnv env nr.1 with
            | some v => (v ++ p.1, p.2)
            | none => (lb :: lb :: (nr.1 ++ rb :: rb :: p.1), nr.1 :: p.2)
          | none =>
            let p := resolveAux env fuel cs2
            (lb :: lb :: p.1, p.2)
        else
          let p := resolveAux env fuel (c2 :: cs2)
          (c1 :: p.1, p.2)
      | [] => ([c1], [])
    else
      let p := resolveAux env fuel cs
      (c1 :: p.1, p.2)

/-- Resolve one field: resulting text plus the undefined-name list. -/
def resolveString (env : EnvMap) (s : List Char) : List Char × List (List Char) :=
  resolveAux env s.length s

/-- Result of resolving a whole request: the resolved request and the
undefined-variable list per field. -/
structure ResolvedRequest where
  req : Request
  urlUndef : List (List Char)
  headerUndef : List (List (List Char))
  bodyUndef : List (List Char)
deriving DecidableEq, Repr

/-- Modelled from the spec: the resolver is applied independently to the
URL, to each header value, and to the body; header names and the method are
never substituted. -/
def resolveVariables (E : EnvironmentSet) (R : Request) : ResolvedRequest :=
  let m := activeMap E
  let u := resolveString m R.url
  let hs := R.headers.map (fun h => (h.1, resolveString m h.2))
  let b := resolveString m R.body
  { req := { method := R.method, url := u.1,
             headers := hs.map (fun h => (h.1, h.2.1)), body := b.1 },
    urlUndef := u.2,
    headerUndef := hs.map (fun h => h.2.2),
    bodyUndef := b.2 }

/-! ### RequestDocumentParser (spec §4.1) -/

/-- Parse failure modes (§4.1, §7). -/
inductive ParseErr where
  | emptyDocument
  | missingRequestLine
  | malformedHeaderLine
deriving DecidableEq, Repr

/-- Parse the first non-blank line as `METHOD URL`: method token up to the
first whitespace, the rest of the line (trimmed) is the URL. -/
def parseRequestLine (l : List Char) : Option (List Char × List Char) :=
  let l1 := l.dropWhile Char.isWhitespace
  let m := l1.takeWhile (fun c => !c.isWhitespace)
  let u := trimChars (l1.drop m.length)
  if m.isEmpty ∨ u.isEmpty then none else some (m, u)

/-- Parse header lines: each is split on the first colon, with surrounding
whitespace trimmed; a line without a colon is malformed. -/
def parseHeaderLines : List (List Char) → Option (List (List Char × List Char))
  | [] => some []
  | l :: ls =>
    match splitFirst ':' l with
    | none => none
    | some nv =>
      match parseHeaderLines ls with
      | some hs => some ((trimChars nv.1, trimChars nv.2) :: hs)
      | none => none

/-- Modelled from the spec (§4.1): parse a raw request document. Lines up
to the first blank line after the request line are headers; everything
after the blank line, verbatim, is the body; no blank line means an empty
body. Duplicate header names are preserved in order. -/
def parseRequest (doc : List Char) : Except ParseErr Request :=
  let ls := (splitLines doc).map stripCR
  match ls.dropWhile List.isEmpty with
  | [] => .error .emptyDocument
  | first :: rest =>
    match parseRequestLine first with
    | none => .error .missingRequestLine
    | some mu =>
      let hdrLines := rest.takeWhile (fun l => !l.isEmpty)
      match parseHeaderLines hdrLines with
      | none => .error .malformedHeaderLine
      | some hs =>
        let body :=
          match rest.drop hdrLines.length with
          | [] => []
          | _ :: bodyLines => joinLines bodyLines
        .ok { method := mu.1, url := mu.2, headers := hs, body := body }

/-- Render a header line as emitted in a request document. -/
def renderHeaderLine (h : List Char × List Char) : List Char :=
  h.1 ++ str ": " ++ h.2

/-- Render a request document: request line, header lines, blank line,
body. -/
def renderDoc (method url : List Char) (hs : List (List Char × List Char))
    (body : List Char) : List Char :=
  (method ++ ' ' :: url) ++ '\n' ::
    ((hs.map (fun h => renderHeaderLine h ++ ['\n'])).flatten ++ '\n' :: body)

/-! ### Execution guard (spec §3 URL invariant, §7) -/

/-- Modelled from the spec: a URL is valid only when it includes a scheme,
i.e. has shape `scheme://rest` with a non-empty scheme. -/
def hasSepFrom : List Char → Bool
  | ':' :: '/' :: '/' :: _ => true
  | _ :: r => hasSepFrom r
  | [] => false

/-- Does the URL carry a `scheme://` with a non-empty scheme? -/
def hasScheme : List Char → Bool
  | [] => false
  | c :: r => if c = ':' then false else hasSepFrom (c :: r)

/-- Terminal result of a send action before/without network completion. -/
inductive SendResult (ρ : Type) where
  | parseFailure (e : ParseErr)
  | validationFailure
  | completed (r : ρ)
deriving DecidableEq

/-- Modelled from the spec (§7 propagation policy): a send parses the
document, then validates the URL, and only then touches the network. The
network is an oracle `net`; the second component counts network attempts. -/
def sendAction {ρ : Type} (doc : List Char) (net : Request → ρ) :
    SendResult ρ × Nat :=
  match parseRequest doc with
  | .error e => (.parseFailure e, 0)
  | .ok R =>
    if hasScheme R.url then (.completed (net R), 1)
    else (.validationFailure, 0)

/-! ### CurlBridge (spec §4.4) -/

/-- Escape a character for a double-quoted shell word. -/
def escD : List Char → List Char
  | [] => []
  | c :: cs => if c = '"' ∨ c = '\\' then '\\' :: c :: escD cs else c :: escD cs

/-- A double-quoted shell word. -/
def dquote (s : List Char) : List Char := '"' :: escD s ++ ['"']

/-- Escape the body of a single-quoted shell word (a quote becomes
close-quote, backslash-escaped quote, reopen-quote). -/
def escS : List Char → List Char
  | [] => []
  | c :: cs => if c = qs then qs :: '\\' :: qs :: qs :: escS cs else c :: escS cs

/-- A single-quoted shell word. -/
def squote (s : List Char) : List Char := qs :: escS s ++ [qs]

/-- One word of an emitted command: bare, double-quoted or single-quoted. -/
inductive WordEnc where
  | plain (s : List Char)
  | dqw (s : List Char)
  | sqw (s : List Char)

/-- The character sequence a word contributes to the command string. -/
def encodeWord : WordEnc → List Char
  | .plain s => s
  | .dqw s => dquote s
  | .sqw s => squote s

/-- The token a word denotes. -/
def decodeWord : WordEnc → List Char
  | .plain s => s
  | .dqw s => s
  | .sqw s => s

/-- Join encoded words with single spaces. -/
def renderWords : List WordEnc → List Char
  | [] => []
  | [w] => encodeWord w
  | w :: ws => encodeWord w ++ ' ' :: renderWords ws

/-- Modelled from the spec: `serialize` emits `curl -X <method> "<url>"`
followed by one `-H "name: value"` per header in original order and, if the
body is non-empty, `-d '<body>'`, with shell-safe quoting. -/
def curlWords (R : Request) : List WordEnc :=
  [.plain (str "curl"), .plain (str "-X"), .plain R.method, .dqw R.url]
    ++ (R.headers.map
        (fun h => [WordEnc.plain (str "-H"), WordEnc.dqw (renderHeaderLine h)])).flatten
    ++ (if R.body.isEmpty then []
        else [WordEnc.plain (str "-d"), WordEnc.sqw R.body])

/-- Modelled from the spec: serialization first resolves all variables
against the active environment, then emits the command string. -/
def toCurl (R : Request) (E : EnvironmentSet) : List Char :=
  renderWords (curlWords (resolveVariables E R).req)

/-- Whitespace that separates shell words. -/
def isWsChar (c : Char) : Bool := c = ' ' ∨ c = '\t' ∨ c = '\n' ∨ c = '\r'

/-- Tokenizer quoting mode. -/
inductive QMode where
  | plain
  | single
  | double
deriving DecidableEq

/-- Modelled from the spec: shell-word tokenization respecting single and
double quoting and backslash escapes. `cur` is the word being built,
`started` whether it has begun (so empty quoted words survive). -/
def tokAux : QMode → List Char → List Char → Bool → Option (List (List Char))
  | .plain, [], cur, started => some (if started then [cur] else [])
  | .single, [], _, _ => none
  | .double, [], _, _ => none
  | .plain, c :: rest, cur, started =>
    if isWsChar c then
      if started then (tokAux .plain rest [] false).map (fun ts => cur :: ts)
      else tokAux .plain rest [] false
    else if c = qs then tokAux .single rest cur true
    else if c = '"' then tokAux .double rest cur true
    else if c = '\\' then
      match rest with
      | [] => none
      | d :: rest2 => tokAux .plain rest2 (cur ++ [d]) true
    else tokAux .plain rest (cur ++ [c]) true
  | .single, c :: rest, cur, _ =>
    if c = qs then tokAux .plain rest cur true
    else tokAux .single rest (cur ++ [c]) true
  | .double, c :: rest, cur, _ =>
    if c = '"' then tokAux .plain rest cur true
    else if c = '\\' then
      match rest with
      | [] => none
      | d :: rest2 =>
        if d = '"' ∨ d = '\\' then tokAux .double rest2 (cur ++ [d]) true
        else tokAux .double rest2 (cur ++ ['\\', d]) true
    else tokAux .double rest (cur ++ [c]) true

/-- Tokenize a command line into shell words. -/
def tokenizeCmd (s : List Char) : Option (List (List Char)) :=
  tokAux .plain s [] false

/-- Curl parse failure modes (§7 `CurlParseError`). -/
inductive CurlErr where
  | badQuoting
  | unrecognizedFlag (flag : List Char)
  | missingArg (flag : List Char)
  | malformedHeader (tok : List Char)
  | missingUrl
deriving DecidableEq, Repr

/-- The base64 alphabet. -/
def b64Alphabet : List Char :=
  str "ABCDEFGHIJKLMNOPQRSTUVWXYZabcdefghijklmnopqrstuvwxyz0123456789+/"

/-- The base64 digit for a 6-bit value. -/
def b64Char (n : Nat) : Char :=
  match b64Alphabet.get? n with
  | some c => c
  | none => '='

/-- Base64 of a character list (as ASCII bytes), used for `-u` handling. -/
def base64Chars : List Char → List Char
  | [] => []
  | [a] =>
    let x := a.toNat % 256
    [b64Char (x / 4), b64Char (x % 4 * 16), '=', '=']
  | [a, b] =>
    let x := a.toNat % 256
    let y := b.toNat % 256
    [b64Char (x / 4), b64Char (x % 4 * 16 + y / 16), b64Char (y % 16 * 4), '=']
  | a :: b :: c :: rest =>
    let x := a.toNat % 256
    let y := b.toNat % 256
    let z := c.toNat % 256
    b64Char (x / 4) :: b64Char (x % 4 * 16 + y / 16) ::
      b64Char (y % 16 * 4 + z / 64) :: b64Char (z % 64) :: base64Chars rest

/-- Accumulator state while reading curl flags. -/
structure CurlState where
  method : Option (List Char)
  url : Option (List Char)
  headers : List (List Char × List Char)
  body : Option (List Char)
  forceGet : Bool
deriving DecidableEq, Repr

/-- The empty curl state. -/
def initCurlState : CurlState :=
  { method := none, url := none, headers := [], body := none, forceGet := false }

/-- Modelled from the spec (§4.4): flag recognition in any order. A token
not starting with `-` is the URL; an unrecognized flag is an error; the
no-op flags are accepted and ignored. -/
def parseCurlTokens : List (List Char) → CurlState → Except CurlErr CurlState
  | [], st => .ok st
  | t :: rest, st =>
    if t.head? = some '-' then
      if t = str "-X" ∨ t = str "--request" then
        match rest with
        | [] => .error (.missingArg t)
        | a :: rest2 => parseCurlTokens rest2 { st with method := some a }
      else if t = str "-H" ∨ t = str "--header" then
        match rest with
        | [] => .error (.missingArg t)
        | a :: rest2 =>
          match splitFirst ':' a with
          | some nv =>
            parseCurlTokens rest2
              { st with headers := st.headers ++ [(trimChars nv.1, trimChars nv.2)] }
          | none => .error (.malformedHeader a)
      else if t = str "-d" ∨ t = str "--data" ∨ t = str "--data-raw"
          ∨ t = str "--data-binary" then
        match rest with
        | [] => .error (.missingArg t)
        | a :: rest2 => parseCurlTokens rest2 { st with body := some a }
      else if t = str "--json" then
        match rest with
        | [] => .error (.missingArg t)
        | a :: rest2 =>
          parseCurlTokens rest2
            { st with body := some a,
                      headers := st.headers
                        ++ [(str "Content-Type", str "application/json")] }
      else if t = str "-u" ∨ t = str "--user" then
        match rest with
        | [] => .error (.missingArg t)
        | a :: rest2 =>
          parseCurlTokens rest2
            { st with headers := st.headers
                ++ [(str "Authorization", str "Basic " ++ base64Chars a)] }
      else if t = str "-A" ∨ t = str "--user-agent" then
        match rest with
        | [] => .error (.missingArg t)
        | a :: rest2 =>
          parseCurlTokens rest2
            { st with headers := st.headers ++ [(str "User-Agent", a)] }
      else if t = str "-b" ∨ t = str "--cookie" then
        match rest with
        | [] => .error (.missingArg t)
        | a :: rest2 =>
          parseCurlTokens rest2
            { st with headers := st.headers ++ [(str "Cookie", a)] }
      else if t = str "-I" ∨ t = str "--head" then
        parseCurlTokens rest { st with method := some (str "HEAD") }
      else if t = str "-G" ∨ t = str "--get" then
        parseCurlTokens rest { st with forceGet := true }
      else if t = str "-L" ∨ t = str "--location" ∨ t = str "-k"
          ∨ t = str "--insecure" ∨ t = str "-s" ∨ t = str "--silent"
          ∨ t = str "--compressed" then
        parseCurlTokens rest st
      else .error (.unrecognizedFlag t)
    else parseCurlTokens rest { st with url := some t }

/-- Modelled from the spec: `parse(command) → Request` — tokenize with
shell-word semantics, skip the leading `curl`, read the flags, then build
the request: method defaults to POST when data is present (GET otherwise),
and `-G` forces GET relocating the payload into the query string. -/
def fromCurl (s : List Char) : Except CurlErr Request :=
  match tokenizeCmd s with
  | none => .error .badQuoting
  | some ts =>
    let ts1 :=
      match ts with
      | t :: rest => if t = str "curl" then rest else ts
      | [] => []
    match parseCurlTokens ts1 initCurlState with
    | .error e => .error e
    | .ok st =>
      match st.url with
      | none => .error .missingUrl
      | some u =>
        let body0 := match st.body with | some b => b | none => []
        let m0 :=
          match st.method with
          | some m => m
          | none => if st.body.isSome then str "POST" else str "GET"
        if st.forceGet then
          .ok { method := str "GET",
                url := if body0.isEmpty then u else u ++ '?' :: body0,
                headers := st.headers, body := [] }
        else
          .ok { method := m0, url := u, headers := st.headers, body := body0 }

/-! ### CookieJar (spec §4.6) -/

/-- Modelled from the spec: `upsert(domain, name, value)` replaces the
matching record or appends a new one. -/
def upsert : List CookieRecord → List Char → List Char → List Char →
    List CookieRecord
  | [], d, n, v => [{ domain := d, name := n, value := v }]
  | r :: rs, d, n, v =>
    if r.domain = d ∧ r.name = n then { domain := d, name := n, value := v } :: rs
    else r :: upsert rs d n v

/-- Modelled from the spec: `forDomain(domain)` — exact string match, no
subdomain wildcarding. -/
def forDomain (jar : List CookieRecord) (d : List Char) :
    List (List Char × List Char) :=
  jar.filterMap (fun r => if r.domain = d then some (r.name, r.value) else none)

/-- Parse a `Set-Cookie` value: take the part before the first `;`, then
split name and value at the first `=`. -/
def parseSetCookieVal (v : List Char) : Option (List Char × List Char) :=
  let core := match splitFirst ';' v with | some p => p.1 | none => v
  match splitFirst '=' core with
  | some p => some (trimChars p.1, trimChars p.2)
  | none => none

/-- All cookies carried by a response's `Set-Cookie` headers. -/
def setCookiesOf (resp : HttpResponse) : List (List Char × List Char) :=
  resp.headers.filterMap
    (fun h => if lowerName h.1 = lowerName (str "Set-Cookie")
              then parseSetCookieVal h.2 else none)

/-- Upsert every received cookie keyed by the request's host. -/
def storeSetCookies (jar : List CookieRecord) (host : List Char)
    (cs : List (List Char × List Char)) : List CookieRecord :=
  cs.foldl (fun j c => upsert j host c.1 c.2) jar

/-! ### HistoryStore (spec §4.7, §6) -/

/-- Seven days in milliseconds (fixed retention window). -/
def sevenDaysMs : Nat := 7 * 24 * 60 * 60 * 1000

/-- The fixed entry cap. -/
def maxEntries : Nat := 50

/-- Remove all entries whose timestamp is older than seven days before
`now`. -/
def pruneAge (now : Nat) (l : List HistoryEntry) : List HistoryEntry :=
  l.filter (fun e => decide (now ≤ e.timestamp + sevenDaysMs))

/-- Modelled from the spec: prune by age first, then keep only the 50 most
recent (the collection is ordered most-recent-first). -/
def pruneHistory (now : Nat) (l : List HistoryEntry) : List HistoryEntry :=
  (pruneAge now l).take maxEntries

/-- Modelled from the spec: `append(entry)` adds the entry (most recent
first), prunes, and persists the whole snapshot. -/
def histAppend (now : Nat) (e : HistoryEntry) (l : List HistoryEntry) :
    List HistoryEntry :=
  pruneHistory now (e :: l)

/-- Modelled from the spec: `load()` applies the same two prunes to the
persisted collection before returning it. -/
def histLoad (now : Nat) (persisted : List HistoryEntry) : List HistoryEntry :=
  pruneHistory now persisted

/-- Run a sequence of appends (each with its own clock reading) from an
initial persisted state. -/
def runAppends (ops : List (Nat × HistoryEntry)) (init : List HistoryEntry) :
    List HistoryEntry :=
  ops.foldl (fun l p => histAppend p.1 p.2 l) init

/-! ### HttpExecutor with cooperative cancellation (spec §4.5, §5) -/

/-- Was the cancellation signal observed at any checkpoint `0..n-1`? -/
def cancelObserved (signal : Nat → Bool) : Nat → Bool
  | 0 => false
  | n + 1 => cancelObserved signal n || signal n

/-- The shared mutable state an execution may write. -/
structure ExecState where
  jar : List CookieRecord
  history : List HistoryEntry
deriving DecidableEq, Repr

/-- Terminal outcome of an execution task. -/
inductive ExecOutcome where
  | ok (r : HttpResponse)
  | cancelled
deriving DecidableEq, Repr

/-- Modelled from the spec: the executor checks the cancellation signal at
the connect checkpoint and at each of `dataSteps` waiting checkpoints; a
cancelled task returns `Cancelled` and leaves the cookie jar and history
untouched; a completed task stores response cookies keyed by the host and
appends a history entry. -/
def executeTask (signal : Nat → Bool) (dataSteps : Nat) (host : List Char)
    (resp : HttpResponse) (now : Nat) (entry : HistoryEntry) (st : ExecState) :
    ExecOutcome × ExecState :=
  if cancelObserved signal (dataSteps + 1) then (.cancelled, st)
  else
    (.ok resp,
     { jar := storeSetCookies st.jar host (setCookiesOf resp),
       history := histAppend now entry st.history })

/-! ### Auto-headers (documented behavior, not in the spec) -/

/-- Does the request already carry a header with this (case-insensitive)
name? -/
def hasHeaderNamed (R : Request) (n : List Char) : Bool :=
  R.headers.any (fun h => lowerName h.1 = lowerName n)

/-- Does the body start with a JSON opener (`{` or `[`)? -/
def jsonBodyStart (b : List Char) : Bool :=
  match b.head? with
  | some c => c = lb ∨ c = '['
  | none => false

/-- Modelled from the spec: the repository documentation states that a
`Content-Type: application/json` header is automatically added when the
body starts with `{` or `[`; guarded on no Content-Type being present. -/
def autoHeaders (R : Request) : Request :=
  if jsonBodyStart R.body ∧ ¬ hasHeaderNamed R (str "Content-Type") then
    { R with headers := R.headers ++ [(str "Content-Type", str "application/json")] }
  else R

/-! ### Sample values used by witnesses -/

/-- A concrete request used by witnesses. -/
def sampleRequest : Request :=
  { method := str "GET", url := str "https://a.com", headers := [], body := [] }

/-- A concrete history entry used by witnesses. -/
def sampleEntry : HistoryEntry :=
  { timestamp := 5, request := sampleRequest, outcome := .failure [] }

/-- A concrete response used by witnesses. -/
def sampleResp : HttpResponse :=
  { status := 200, headers := [], body := [], durationMs := 10 }

/-- A concrete executor state used by witnesses. -/
def sampleState : ExecState := { jar := [], history := [] }

/-! ### HistoryStore retention (C1) -/

theorem pruneHistory_length_le (now : Nat) (l : List HistoryEntry) :
    (pruneHistory now l).length ≤ maxEntries := by
  unfold pruneHistory
  calc ((pruneAge now l).take maxEntries).length
      = min maxEntries (pruneAge now l).length := by rw [List.length_take]
    _ ≤ maxEntries := min_le_left _ _

theorem pruneHistory_fresh (now : Nat) (l : List HistoryEntry) :
    ∀ e ∈ pruneHistory now l, now ≤ e.timestamp + sevenDaysMs := by
  intro e he
  unfold pruneHistory at he
  have h1 : e ∈ pruneAge now l := List.take_subset _ _ he
  unfold pruneAge at h1
  have h2 := (List.mem_filter.mp h1).2
  exact of_decide_eq_true h2

/-- C1: after any sequence of `append` calls and a `load`, the persisted
history has at most 50 entries and no entry older than 7 days relative to
the load; each individual `append` maintains the same bound relative to its
own clock; and pruning applies the age cutoff before the count cap. -/
theorem history_retention_invariant :
    ∀ (init : List HistoryEntry) (ops : List (Nat × HistoryEntry)) (loadNow : Nat),
      ((histLoad loadNow (runAppends ops init)).length ≤ maxEntries
        ∧ ∀ e ∈ histLoad loadNow (runAppends ops init),
            loadNow ≤ e.timestamp + sevenDaysMs)
      ∧ (∀ (now : Nat) (e : HistoryEntry) (l : List HistoryEntry),
          (histAppend now e l).length ≤ maxEntries
            ∧ ∀ x ∈ histAppend now e l, now ≤ x.timestamp + sevenDaysMs)
      ∧ (∀ (now : Nat) (l : List HistoryEntry),
          pruneHistory now l = (pruneAge now l).take maxEntries) := by
  intro init ops loadNow
  refine ⟨⟨pruneHistory_length_le _ _, pruneHistory_fresh _ _⟩, ?_, ?_⟩
  · intro now e l
    exact ⟨pruneHistory_length_le _ _, pruneHistory_fresh _ _⟩
  · intro now l
    rfl

theorem history_retention_invariant_witness :
    (histAppend 5 sampleEntry []).length ≤ maxEntries
      ∧ 5 ≤ sampleEntry.timestamp + sevenDaysMs :=
  ⟨((history_retention_invariant [] [] 0).2.1 5 sampleEntry []).1,
   ((history_retention_invariant [] [] 0).2.1 5 sampleEntry []).2 sampleEntry
     (by decide)⟩

/-! ### Environment overlay semantics (C6) -/

theorem lookup_envInsert_self (m : EnvMap) (k v : List Char) :
    lookupEnv (envInsert m k v) k = some v := by
  induction m with
  | nil => simp [envInsert, lookupEnv]
  | cons p ps ih =>
    by_cases h : p.1 = k
    · simp [envInsert, h, lookupEnv]
    · simp [envInsert, h, lookupEnv, ih]

theorem lookup_envInsert_other (m : EnvMap) (k v k' : List Char)
    (h : k' ≠ k) : lookupEnv (envInsert m k v) k' = lookupEnv m k' := by
  have hk : k ≠ k' := fun hh => h hh.symm
  induction m with
  | nil => simp [envInsert, lookupEnv, hk]
  | cons p ps ih =>
    by_cases hp : p.1 = k
    · subst hp
      simp [envInsert, lookupEnv, hk]
    · simp [envInsert, hp, lookupEnv, ih]

theorem buildActive_lookup_none (ov : EnvMap) :
    ∀ (base : EnvMap) (k : List Char), lastLookup ov k = none →
      lookupEnv (buildActive base ov) k = lookupEnv base k := by
  induction ov with
  | nil => intro base k _; rfl
  | cons p ps ih =>
    intro base k h
    rcases hps : lastLookup ps k with _ | v
    · simp only [lastLookup, hps] at h
      have hp : p.1 ≠ k := by
        intro he
        rw [if_pos he] at h
        exact Option.noConfusion h
      have hb : buildActive base (p :: ps) = buildActive (envInsert base p.1 p.2) ps := rfl
      rw [hb, ih _ _ hps, lookup_envInsert_other _ _ _ _ (fun hh => hp hh.symm)]
    · simp only [lastLookup, hps] at h
      exact Option.noConfusion h

theorem buildActive_lookup_some (ov : EnvMap) :
    ∀ (base : EnvMap) (k v : List Char), lastLookup ov k = some v →
      lookupEnv (buildActive base ov) k = some v := by
  induction ov with
  | nil => intro base k v h; exact Option.noConfusion h
  | cons p ps ih =>
    intro base k v h
    have hb : buildActive base (p :: ps) = buildActive (envInsert base p.1 p.2) ps := rfl
    rcases hps : lastLookup ps k with _ | v'
    · simp only [lastLookup, hps] at h
      by_cases hp : p.1 = k
      · rw [if_pos hp] at h
        have hv : p.2 = v := Option.some.inj h
        rw [hb, buildActive_lookup_none ps _ _ hps, ← hp, ← hv]
        exact lookup_envInsert_self base p.1 p.2
      · rw [if_neg hp] at h
        exact Option.noConfusion h
    · simp only [lastLookup, hps] at h
      have hv : v' = v := Option.some.inj h
      rw [hb, ih _ _ _ (hv ▸ hps)]

/-- C6: overlay keys override base keys, keys only in the base stay
visible, no overlay means base lookup; illustrated on the documented
`BASE_URL` example through the resolver. -/
theorem env_overlay_semantics :
    ∀ (base ov : EnvMap) (k v : List Char),
      (lookupEnv (activeMap { base := base, overlay := none }) k = lookupEnv base k)
      ∧ (lastLookup ov k = some v →
          lookupEnv (activeMap { base := base, overlay := some ov }) k = some v)
      ∧ (lastLookup ov k = none →
          lookupEnv (activeMap { base := base, overlay := some ov }) k = lookupEnv base k)
      ∧ (resolveString
            (activeMap { base := [(str "BASE_URL", str "https://a.com")], overlay := none })
            (lb :: lb :: str "BASE_URL" ++ rb :: rb :: str "/x")).1
          = str "https://a.com/x"
      ∧ (resolveString
            (activeMap { base := [(str "BASE_URL", str "https://a.com")],
                         overlay := some [(str "BASE_URL", str "http://localhost:3000")] })
            (lb :: lb :: str "BASE_URL" ++ rb :: rb :: str "/x")).1
          = str "http://localhost:3000/x" := by
  intro base ov k v
  refine ⟨rfl, ?_, ?_, by decide, by decide⟩
  · intro h
    exact buildActive_lookup_some ov base k v h
  · intro h
    exact buildActive_lookup_none ov base k h

theorem env_overlay_semantics_witness :
    lookupEnv
        (activeMap { base := [(str "BASE_URL", str "https://a.com")],
                     overlay := some [(str "BASE_URL", str "http://localhost:3000")] })
        (str "BASE_URL")
      = some (str "http://localhost:3000") :=
  (env_overlay_semantics [(str "BASE_URL", str "https://a.com")]
      [(str "BASE_URL", str "http://localhost:3000")]
      (str "BASE_URL") (str "http://localhost:3000")).2.1 (by decide)

/-! ### Cookie jar exact-domain matching (C7) -/

/-- C7: a cookie stored from a response of host `d` is keyed by exactly
`d`: it is injected for host `d` and the cookie set of every other host
string (including subdomains) is unchanged. -/
theorem cookie_exact_domain :
    ∀ (jar : List CookieRecord) (d n v d' : List Char),
      ((n, v) ∈ forDomain (upsert jar d n v) d)
      ∧ (d' ≠ d → forDomain (upsert jar d n v) d' = forDomain jar d') := by
  intro jar d n v d'
  constructor
  · induction jar with
    | nil => simp [upsert, forDomain, List.filterMap_cons]
    | cons r rs ih =>
      by_cases hm : r.domain = d ∧ r.name = n
      · simp [upsert, hm, forDomain, List.filterMap_cons]
      · by_cases hd : r.domain = d
        · simp only [upsert, if_neg hm, forDomain, List.filterMap_cons, if_pos hd]
          exact List.mem_cons_of_mem _ ih
        · simp only [upsert, if_neg hm, forDomain, List.filterMap_cons, if_neg hd]
          exact ih
  · intro hne
    have hdd : d ≠ d' := fun hh => hne hh.symm
    induction jar with
    | nil => simp [upsert, forDomain, List.filterMap_cons, hdd]
    | cons r rs ih =>
      by_cases hm : r.domain = d ∧ r.name = n
      · have hrd : r.domain ≠ d' := by rw [hm.1]; exact hdd
        simp [upsert, hm, forDomain, List.filterMap_cons, hdd, hrd]
      · by_cases hd : r.domain = d'
        · simp only [upsert, if_neg hm, forDomain, List.filterMap_cons, if_pos hd]
          exact congrArg _ ih
        · simp only [upsert, if_neg hm, forDomain, List.filterMap_cons, if_neg hd]
          exact ih

theorem cookie_exact_domain_witness :
    ((str "session", str "abc123")
        ∈ forDomain (upsert [] (str "a.com") (str "session") (str "abc123")) (str "a.com"))
    ∧ forDomain (upsert [] (str "a.com") (str "session") (str "abc123")) (str "b.com")
        = forDomain [] (str "b.com")
    ∧ forDomain (upsert [] (str "a.com") (str "session") (str "abc123")) (str "sub.a.com")
        = forDomain [] (str "sub.a.com") :=
  ⟨(cookie_exact_domain [] (str "a.com") (str "session") (str "abc123") (str "b.com")).1,
   (cookie_exact_domain [] (str "a.com") (str "session") (str "abc123") (str "b.com")).2
     (by decide),
   (cookie_exact_domain [] (str "a.com") (str "session") (str "abc123") (str "sub.a.com")).2
     (by decide)⟩

/-! ### Cancellation leaves no partial effects (C9) -/

theorem cancelObserved_of_signal (signal : Nat → Bool) :
    ∀ (n t : Nat), t < n → signal t = true → cancelObserved signal n = true := by
  intro n
  induction n with
  | zero => intro t ht _; exact absurd ht (Nat.not_lt_zero t)
  | succ m ih =>
    intro t ht hs
    rcases Nat.lt_succ_iff_lt_or_eq.mp ht with h | h
    · unfold cancelObserved
      rw [ih t h hs]
      rfl
    · unfold cancelObserved
      rw [h] at hs
      rw [hs]
      simp

/-- C9: if the cancellation signal is observed at any checkpoint before
completion, the task's terminal outcome is `Cancelled` — never a response —
and the cookie jar and history are left exactly as they were. -/
theorem cancelled_task_no_writes :
    ∀ (signal : Nat → Bool) (dataSteps : Nat) (host : List Char)
      (resp : HttpResponse) (now : Nat) (entry : HistoryEntry) (st : ExecState)
      (t : Nat), t ≤ dataSteps → signal t = true →
      executeTask signal dataSteps host resp now entry st
        = (ExecOutcome.cancelled, st) := by
  intro signal dataSteps host resp now entry st t ht hs
  unfold executeTask
  rw [cancelObserved_of_signal signal (dataSteps + 1) t (Nat.lt_succ_of_le ht) hs]
  rfl

theorem cancelled_task_no_writes_witness :
    executeTask (fun _ => true) 0 (str "a.com") sampleResp 0 sampleEntry sampleState
      = (ExecOutcome.cancelled, sampleState) :=
  cancelled_task_no_writes (fun _ => true) 0 (str "a.com") sampleResp 0 sampleEntry
    sampleState 0 (by decide) rfl

/-! ### Automatic JSON Content-Type header (C10) -/

/-- C10: when the body starts with `{` or `[` and no Content-Type header is
present, a `Content-Type: application/json` header is added to the sent
request. -/
theorem auto_json_content_type :
    ∀ R : Request, jsonBodyStart R.body = true →
      hasHeaderNamed R (str "Content-Type") = false →
      (autoHeaders R).headers
        = R.headers ++ [(str "Content-Type", str "application/json")] := by
  intro R h1 h2
  unfold autoHeaders
  rw [if_pos ⟨h1, by rw [h2]; exact Bool.false_ne_true⟩]

theorem auto_json_content_type_witness :
    (autoHeaders { method := str "POST", url := str "https://a.com",
                   headers := [], body := [lb, rb] }).headers
      = [] ++ [(str "Content-Type", str "application/json")] :=
  auto_json_content_type
    { method := str "POST", url := str "https://a.com", headers := [], body := [lb, rb] }
    (by decide) (by decide)

/-! ### Validation blocks execution (C3) -/

/-- C3: a parsed request whose URL is empty or lacks a `scheme://` is
rejected by validation — not by the parser — synchronously, and the network
oracle is never invoked (zero attempts), whatever it would return. -/
theorem validation_blocks_execution :
    ∀ (ρ : Type) (net : Request → ρ) (doc : List Char) (R : Request),
      parseRequest doc = .ok R → hasScheme R.url = false →
      sendAction doc net = (SendResult.validationFailure, 0) := by
  intro ρ net doc R hp hv
  unfold sendAction
  rw [hp]
  simp [hv]

theorem validation_blocks_execution_witness :
    sendAction (str "GET api.example.com") (fun _ => (0 : Nat))
      = (SendResult.validationFailure, 0) :=
  validation_blocks_execution Nat (fun _ => (0 : Nat)) (str "GET api.example.com")
    { method := str "GET", url := str "api.example.com", headers := [], body := [] }
    (by decide) (by decide)

/-! ### Resolver scanner lemmas -/

theorem takeWhile_append_drop (p : Char → Bool) (l : List Char) :
    l.takeWhile p ++ l.drop (l.takeWhile p).length = l := by
  induction l with
  | nil => rfl
  | cons c l' ih =>
    by_cases h : p c
    · rw [List.takeWhile_cons, if_pos h]
      simpa using ih
    · rw [List.takeWhile_cons, if_neg h]
      rfl

theorem all_takeWhile (p : Char → Bool) (l : List Char) :
    (l.takeWhile p).all p = true := by
  induction l with
  | nil => rfl
  | cons c l' ih =>
    rw [List.takeWhile_cons]
    by_cases h : p c
    · rw [if_pos h]
      simp [h, ih]
    · rw [if_neg h]
      rfl

theorem takeWhile_append_stop {α : Type} (p : α → Bool) (xs : List α) (y : α)
    (ys : List α) (hall : xs.all p = true) (hy : p y = false) :
    (xs ++ y :: ys).takeWhile p = xs := by
  induction xs with
  | nil => simp [List.takeWhile_cons, hy]
  | cons x xs' ih =>
    simp only [List.all_cons, Bool.and_eq_true] at hall
    rw [List.cons_append, List.takeWhile_cons, if_pos hall.1, ih hall.2]

theorem scanName_sound (cs n r : List Char) (h : scanName cs = some (n, r)) :
    cs = n ++ rb :: rb :: r ∧ n ≠ [] ∧ n.all validNameChar = true := by
  simp only [scanName] at h
  by_cases he : (cs.takeWhile validNameChar).isEmpty
  · rw [if_pos he] at h
    exact Option.noConfusion h
  · rw [if_neg he] at h
    rcases hd : cs.drop (cs.takeWhile validNameChar).length with _ | ⟨c1, tl⟩
    · rw [hd] at h
      exact Option.noConfusion h
    rcases tl with _ | ⟨c2, rest⟩
    · rw [hd] at h
      exact Option.noConfusion h
    rw [hd] at h
    dsimp only at h
    by_cases hbb : c1 = rb ∧ c2 = rb
    · rw [if_pos hbb] at h
      obtain ⟨hn, hr⟩ := Prod.ext_iff.mp (Option.some.inj h)
      dsimp only at hn hr
      refine ⟨?_, ?_, ?_⟩
      · have hsplit := takeWhile_append_drop validNameChar cs
        rw [hd, hn, hbb.1, hbb.2, hr] at hsplit
        exact hsplit.symm
      · intro hnil
        apply he
        rw [← hn] at hnil
        rw [hnil]
        rfl
      · rw [← hn]
        exact all_takeWhile validNameChar cs
    · rw [if_neg hbb] at h
      exact Option.noConfusion h

theorem scanName_len (cs : List Char) (nr : List Char × List Char)
    (h : scanName cs = some nr) : nr.2.length + 3 ≤ cs.length := by
  obtain ⟨hsp, hne, _⟩ := scanName_sound cs nr.1 nr.2 (by rw [h])
  have hlen : cs.length = nr.1.length + (nr.2.length + 2) := by
    rw [hsp]
    simp only [List.length_append, List.length_cons]
  have hpos : 1 ≤ nr.1.length := List.length_pos.mpr hne
  omega

theorem scanName_exact (n post : List Char) (hne : n ≠ [])
    (hval : n.all validNameChar = true) :
    scanName (n ++ rb :: rb :: post) = some (n, post) := by
  have hrb : validNameChar rb = false := by
    simp [validNameChar]
  have htw : (n ++ rb :: rb :: post).takeWhile validNameChar = n :=
    takeWhile_append_stop validNameChar n rb (rb :: post) hval hrb
  have hdr : (n ++ rb :: rb :: post).drop n.length = rb :: rb :: post := by
    rw [List.drop_left]
  simp only [scanName, htw, hdr]
  simp [List.isEmpty_iff, hne]

/-! ### Resolver identity on token-free input -/

theorem resolve_id (env : EnvMap) :
    ∀ (fuel : Nat) (cs : List Char), containsToken cs = false →
      resolveAux env fuel cs = (cs, []) := by
  intro fuel
  induction fuel with
  | zero => intro cs _; rfl
  | succ f ih =>
    intro cs h
    cases cs with
    | nil => rfl
    | cons c1 cs' =>
      simp only [containsToken, Bool.or_eq_false_iff] at h
      by_cases h1 : c1 = lb
      · cases cs' with
        | nil =>
          simp [resolveAux, h1]
        | cons c2 cs2 =>
          by_cases h2 : c2 = lb
          · rcases hsn : scanName cs2 with _ | nr
            · have hc2 : containsToken cs2 = false := by
                have h' := h.2
                simp only [containsToken, Bool.or_eq_false_iff] at h'
                exact h'.2
              simp only [resolveAux, if_pos h1, if_pos h2, hsn]
              rw [ih cs2 hc2]
              simp [h1, h2]
            · exfalso
              have hst : startsToken (c1 :: c2 :: cs2) = true := by
                simp [startsToken, h1, h2, hsn]
              rw [h.1] at hst
              exact Bool.noConfusion hst
          · simp only [resolveAux, if_pos h1, if_neg h2]
            rw [ih (c2 :: cs2) h.2]
      · simp only [resolveAux, if_neg h1]
        rw [ih cs' h.2]

/-! ### Fuel irrelevance for the resolver -/

theorem resolveAux_fuel (env : EnvMap) :
    ∀ (f : Nat) (cs : List Char), cs.length ≤ f →
      resolveAux env f cs = resolveString env cs := by
  intro f
  induction f using Nat.strong_induction_on with
  | _ f ih =>
    intro cs hle
    match f, cs with
    | 0, [] => rfl
    | fp + 1, [] => rfl
    | 0, c :: cs' => simp at hle
    | fp + 1, c1 :: cs' =>
      have hf : fp < fp + 1 := Nat.lt_succ_self fp
      have hle' : cs'.length + 1 ≤ fp + 1 := by simpa using hle
      unfold resolveString
      simp only [List.length_cons]
      by_cases h1 : c1 = lb
      · cases cs' with
        | nil => simp [resolveAux, h1]
        | cons c2 cs2 =>
          simp only [List.length_cons] at hle' ⊢
          by_cases h2 : c2 = lb
          · rcases hsn : scanName cs2 with _ | nr
            · simp only [resolveAux, if_pos h1, if_pos h2, hsn]
              rw [ih fp hf cs2 (by omega),
                  ih (cs2.length + 1) (by omega) cs2 (by omega)]
            · have hr3 := scanName_len cs2 nr hsn
              simp only [resolveAux, if_pos h1, if_pos h2, hsn]
              rw [ih fp hf nr.2 (by omega),
                  ih (cs2.length + 1) (by omega) nr.2 (by omega)]
          · simp only [resolveAux, if_pos h1, if_neg h2]
            rw [ih fp hf (c2 :: cs2) (by simp only [List.length_cons]; omega)]
            simp only [resolveString, List.length_cons, resolveAux, if_neg h2]
      · simp only [resolveAux, if_neg h1]
        rw [ih fp hf cs' (by omega),
            ih cs'.length (by omega) cs' (le_refl _)]

/-! ### Literal prefixes and undefined tokens -/

/-- Does the string contain two adjacent opening braces? Only such a pair
can start a token match, so its absence (plus not ending in an opening
brace) makes a prefix scan-inert. -/
def hasDoubleLb : List Char → Bool
  | c1 :: c2 :: rest => if c1 = lb ∧ c2 = lb then true else hasDoubleLb (c2 :: rest)
  | _ => false

theorem resolve_lit_pre (env : EnvMap) (t : List Char) :
    ∀ (pre : List Char), hasDoubleLb pre = false → pre.getLast? ≠ some lb →
      ∀ f, (pre ++ t).length ≤ f →
      resolveAux env f (pre ++ t)
        = (pre ++ (resolveString env t).1, (resolveString env t).2) := by
  intro pre
  induction pre with
  | nil =>
    intro _ _ f hf
    simp only [List.nil_append]
    rw [resolveAux_fuel env f t (by simpa using hf)]
  | cons c pre' ih =>
    intro hdb hlast f hf
    match f with
    | 0 => simp at hf
    | f + 1 =>
      have hf' : (pre' ++ t).length ≤ f := by
        simp only [List.cons_append, List.length_cons] at hf
        omega
      have hstep : (c :: pre') ++ t = c :: (pre' ++ t) := rfl
      by_cases hc : c = lb
      · cases pre' with
        | nil =>
          exfalso
          apply hlast
          rw [hc]
          rfl
        | cons c2 rest' =>
          have hc2 : c2 ≠ lb := by
            intro he
            rw [show hasDoubleLb (c :: c2 :: rest')
                = if c = lb ∧ c2 = lb then true else hasDoubleLb (c2 :: rest')
              from rfl, if_pos ⟨hc, he⟩] at hdb
            exact Bool.noConfusion hdb
          have hdb' : hasDoubleLb (c2 :: rest') = false := by
            rw [show hasDoubleLb (c :: c2 :: rest')
                = if c = lb ∧ c2 = lb then true else hasDoubleLb (c2 :: rest')
              from rfl, if_neg (fun hp => hc2 hp.2)] at hdb
            exact hdb
          have hlast' : (c2 :: rest').getLast? ≠ some lb := by
            rw [List.getLast?_cons_cons] at hlast
            exact hlast
          have ih' : resolveAux env f (c2 :: (rest' ++ t))
              = ((c2 :: rest') ++ (resolveString env t).1, (resolveString env t).2) :=
            ih hdb' hlast' f hf'
          rw [hstep]
          simp only [List.cons_append, resolveAux, if_pos hc]
          rw [if_neg hc2, ih']
          rfl
      · have hdb' : hasDoubleLb pre' = false := by
          cases pre' with
          | nil => rfl
          | cons c2 rest' =>
            rw [show hasDoubleLb (c :: c2 :: rest')
                = if c = lb ∧ c2 = lb then true else hasDoubleLb (c2 :: rest')
              from rfl, if_neg (fun hp => hc hp.1)] at hdb
            exact hdb
        have hlast' : pre'.getLast? ≠ some lb := by
          cases pre' with
          | nil => intro hcon; exact Option.noConfusion hcon
          | cons c2 rest' =>
            rw [List.getLast?_cons_cons] at hlast
            exact hlast
        rw [hstep]
        simp only [resolveAux, if_neg hc]
        rw [ih hdb' hlast' f hf']
        rfl

theorem resolve_token_head (env : EnvMap) (name post : List Char)
    (hne : name ≠ []) (hval : name.all validNameChar = true)
    (hlook : lookupEnv env name = none) :
    resolveString env (lb :: lb :: (name ++ rb :: rb :: post))
      = (lb :: lb :: (name ++ rb :: rb :: (resolveString env post).1),
         name :: (resolveString env post).2) := by
  have hsn := scanName_exact name post hne hval
  show resolveAux env (lb :: lb :: (name ++ rb :: rb :: post)).length
      (lb :: lb :: (name ++ rb :: rb :: post)) = _
  simp only [List.length_cons]
  simp only [resolveAux, eq_self_iff_true, if_true, hsn, hlook]
  rw [resolveAux_fuel env ((name ++ rb :: rb :: post).length + 1) post
    (by simp only [List.length_append, List.length_cons]; omega)]

/-- C5: an undefined `{{name}}` token (case-sensitive lookup misses) is
kept literally in the resolved output of its field, and its name is
recorded in that field's undefined-variable list. The text before the
token only needs to be scan-inert — no `{{` pair and not ending in `{` —
so tokens inside JSON bodies such as `(\x7b"user": "\x7b\x7bUSERNAME\x7d\x7d"\x7d)`
are covered. -/
theorem undefined_token_preserved :
    ∀ (env : EnvMap) (pre name post : List Char),
      hasDoubleLb pre = false → pre.getLast? ≠ some lb →
      name ≠ [] → name.all validNameChar = true → lookupEnv env name = none →
      (resolveString env (pre ++ lb :: lb :: (name ++ rb :: rb :: post))
        = (pre ++ lb :: lb :: (name ++ rb :: rb :: (resolveString env post).1),
           name :: (resolveString env post).2))
      ∧ name ∈ (resolveString env (pre ++ lb :: lb :: (name ++ rb :: rb :: post))).2 := by
  intro env pre name post hdb hlast hne hval hlook
  have key : resolveString env (pre ++ lb :: lb :: (name ++ rb :: rb :: post))
      = (pre ++ lb :: lb :: (name ++ rb :: rb :: (resolveString env post).1),
         name :: (resolveString env post).2) := by
    show resolveAux env _ _ = _
    rw [resolve_lit_pre env _ pre hdb hlast _ (le_refl _),
        resolve_token_head env name post hne hval hlook]
  refine ⟨key, ?_⟩
  rw [key]
  exact List.mem_cons_self _ _

theorem undefined_token_preserved_witness :
    (resolveString []
        (str "\x7b\"user\": \"" ++ lb :: lb :: (str "USERNAME" ++ rb :: rb :: str "\"\x7d"))
      = (str "\x7b\"user\": \""
          ++ lb :: lb :: (str "USERNAME"
            ++ rb :: rb :: (resolveString [] (str "\"\x7d")).1),
         str "USERNAME" :: (resolveString [] (str "\"\x7d")).2))
    ∧ str "USERNAME" ∈ (resolveString []
        (str "\x7b\"user\": \"" ++ lb :: lb :: (str "USERNAME" ++ rb :: rb :: str "\"\x7d"))).2 :=
  undefined_token_preserved [] (str "\x7b\"user\": \"") (str "USERNAME") (str "\"\x7d")
    (by decide) (by decide) (by decide) (by decide) (by decide)

/-! ### Resolver identity at the request level (C4) -/

theorem resolveString_id (env : EnvMap) (s : List Char)
    (h : containsToken s = false) : resolveString env s = (s, []) :=
  resolve_id env s.length s h

theorem headers_resolve_req (m : EnvMap) :
    ∀ hs : List (List Char × List Char), (∀ h ∈ hs, containsToken h.2 = false) →
      (hs.map (fun h => (h.1, resolveString m h.2))).map (fun h => (h.1, h.2.1))
        = hs := by
  intro hs hhs
  induction hs with
  | nil => rfl
  | cons h hs' ih =>
    have h0 : resolveString m h.2 = (h.2, []) :=
      resolveString_id m _ (hhs h (List.mem_cons_self _ _))
    simp only [List.map_cons, h0, ih (fun x hx => hhs x (List.mem_cons_of_mem _ hx))]

theorem headers_resolve_undef (m : EnvMap) :
    ∀ hs : List (List Char × List Char), (∀ h ∈ hs, containsToken h.2 = false) →
      (hs.map (fun h => (h.1, resolveString m h.2))).map (fun h => h.2.2)
        = hs.map (fun _ => ([] : List (List Char))) := by
  intro hs hhs
  induction hs with
  | nil => rfl
  | cons h hs' ih =>
    have h0 : resolveString m h.2 = (h.2, []) :=
      resolveString_id m _ (hhs h (List.mem_cons_self _ _))
    simp only [List.map_cons, h0, ih (fun x hx => hhs x (List.mem_cons_of_mem _ hx))]

/-- C4: on a request whose url, header values and body contain no
`{{...}}` token, the resolver is the identity: the resolved request equals
the input exactly and all undefined-variable lists are empty. -/
theorem resolver_identity_token_free :
    ∀ (E : EnvironmentSet) (R : Request),
      containsToken R.url = false →
      (∀ h ∈ R.headers, containsToken h.2 = false) →
      containsToken R.body = false →
      resolveVariables E R
        = { req := R, urlUndef := [],
            headerUndef := R.headers.map (fun _ => ([] : List (List Char))),
            bodyUndef := [] } := by
  intro E R hu hh hb
  obtain ⟨Rm, Ru, Rh, Rb⟩ := R
  simp only at hu hh hb
  simp only [resolveVariables]
  rw [headers_resolve_req (activeMap E) Rh hh, headers_resolve_undef (activeMap E) Rh hh,
    resolveString_id (activeMap E) Ru hu, resolveString_id (activeMap E) Rb hb]

theorem resolver_identity_token_free_witness :
    resolveVariables { base := [(str "A", str "b")], overlay := none }
        { method := str "GET", url := str "https://a.com/x",
          headers := [(str "Accept", str "application/json")], body := str "hi" }
      = { req := { method := str "GET", url := str "https://a.com/x",
                   headers := [(str "Accept", str "application/json")],
                   body := str "hi" },
          urlUndef := [],
          headerUndef := [(str "Accept", str "application/json")].map
            (fun _ => ([] : List (List Char))),
          bodyUndef := [] } :=
  resolver_identity_token_free { base := [(str "A", str "b")], overlay := none }
    { method := str "GET", url := str "https://a.com/x",
      headers := [(str "Accept", str "application/json")], body := str "hi" }
    (by decide) (by decide) (by decide)

/-! ### Line-splitting lemmas for the document parser -/

theorem splitLines_ne_nil (s : List Char) : splitLines s ≠ [] := by
  cases s with
  | nil => simp [splitLines]
  | cons c cs =>
    simp only [splitLines]
    by_cases h : c = '\n'
    · simp [h]
    · rcases hsp : splitLines cs with _ | ⟨l, ls⟩ <;> simp [h, hsp]

theorem splitLines_append (l rest : List Char) (hl : ('\n' : Char) ∉ l) :
    splitLines (l ++ '\n' :: rest) = l :: splitLines rest := by
  induction l with
  | nil => simp [splitLines]
  | cons c l' ih =>
    have hc : c ≠ '\n' := fun h => hl (h ▸ List.mem_cons_self c l')
    have hl' : ('\n' : Char) ∉ l' := fun h => hl (List.mem_cons_of_mem _ h)
    rw [List.cons_append]
    simp only [splitLines, if_neg hc, ih hl']

theorem joinLines_splitLines (s : List Char) : joinLines (splitLines s) = s := by
  induction s with
  | nil => rfl
  | cons c s' ih =>
    by_cases hc : c = '\n'
    · simp only [splitLines, if_pos hc]
      rcases hsp : splitLines s' with _ | ⟨l0, ls⟩
      · exact absurd hsp (splitLines_ne_nil s')
      · rw [hsp] at ih
        simp only [joinLines]
        rw [ih, hc]
        rfl
    · simp only [splitLines, if_neg hc]
      rcases hsp : splitLines s' with _ | ⟨l0, ls⟩
      · exact absurd hsp (splitLines_ne_nil s')
      · rw [hsp] at ih
        rcases ls with _ | ⟨l1, ls'⟩
        · simp only [joinLines] at ih ⊢
          rw [ih]
        · simp only [joinLines] at ih ⊢
          rw [List.cons_append, ih]

theorem splitLines_chars (s : List Char) :
    ∀ l ∈ splitLines s, ∀ c ∈ l, c ∈ s := by
  induction s with
  | nil =>
    intro l hl c hc
    simp [splitLines] at hl
    rw [hl] at hc
    exact absurd hc (List.not_mem_nil c)
  | cons a s' ih =>
    intro l hl c hc
    by_cases ha : a = '\n'
    · simp only [splitLines, if_pos ha] at hl
      rcases List.mem_cons.mp hl with hl | hl
      · rw [hl] at hc
        exact absurd hc (List.not_mem_nil c)
      · exact List.mem_cons_of_mem _ (ih l hl c hc)
    · simp only [splitLines, if_neg ha] at hl
      rcases hsp : splitLines s' with _ | ⟨x, xs⟩
      · exact absurd hsp (splitLines_ne_nil s')
      · rw [hsp] at hl
        rcases List.mem_cons.mp hl with hl | hl
        · rw [hl] at hc
          rcases List.mem_cons.mp hc with hc | hc
          · rw [hc]
            exact List.mem_cons_self a s'
          · exact List.mem_cons_of_mem _ (ih x (hsp ▸ List.mem_cons_self x xs) c hc)
        · exact List.mem_cons_of_mem _ (ih l (hsp ▸ List.mem_cons_of_mem _ hl) c hc)

theorem stripCR_id (l : List Char) (h : ('\r' : Char) ∉ l) : stripCR l = l := by
  unfold stripCR
  rcases hg : l.getLast? with _ | c
  · simp
  · by_cases hc : c = '\r'
    · exfalso
      apply h
      rw [← hc]
      exact List.mem_of_mem_getLast? (hg ▸ rfl)
    · rw [if_neg (by simp [hg, hc])]

theorem map_stripCR_id (L : List (List Char))
    (h : ∀ l ∈ L, ('\r' : Char) ∉ l) : L.map stripCR = L := by
  induction L with
  | nil => rfl
  | cons l ls ih =>
    rw [List.map_cons, stripCR_id l (h l (List.mem_cons_self _ _)),
      ih (fun x hx => h x (List.mem_cons_of_mem _ hx))]

/-! ### Render/parse agreement for request documents -/

/-- Does the string avoid line-breaking characters? -/
def noNLCR (s : List Char) : Bool := s.all (fun c => c ≠ '\n' ∧ c ≠ '\r')

/-- Well-formedness of a header pair as written on one document line. -/
def hdrWf (h : List Char × List Char) : Prop :=
  (':' : Char) ∉ h.1 ∧ trimChars h.1 = h.1 ∧ trimChars h.2 = h.2
    ∧ noNLCR h.1 = true ∧ noNLCR h.2 = true

instance (h : List Char × List Char) : Decidable (hdrWf h) := by
  unfold hdrWf
  infer_instance

theorem trim_cons_space (v : List Char) : trimChars (' ' :: v) = trimChars v := by
  simp [trimChars, List.dropWhile_cons]

theorem splitFirst_first (n w : List Char) (h : (':' : Char) ∉ n) :
    splitFirst ':' (n ++ ':' :: w) = some (n, w) := by
  induction n with
  | nil => simp [splitFirst]
  | cons c n' ih =>
    have hc : c ≠ ':' := fun hh => h (hh ▸ List.mem_cons_self c n')
    rw [List.cons_append]
    simp only [splitFirst, if_neg hc,
      ih (fun hh => h (List.mem_cons_of_mem _ hh))]

theorem parseHeaderLines_render (hs : List (List Char × List Char))
    (hwf : ∀ h ∈ hs, hdrWf h) :
    parseHeaderLines (hs.map renderHeaderLine) = some hs := by
  induction hs with
  | nil => rfl
  | cons h hs' ih =>
    obtain ⟨hcol, htn, htv, _, _⟩ := hwf h (List.mem_cons_self _ _)
    have hline : renderHeaderLine h = h.1 ++ ':' :: ' ' :: h.2 := by
      unfold renderHeaderLine
      rw [List.append_assoc]
      rfl
    rw [List.map_cons]
    simp only [parseHeaderLines, hline, splitFirst_first h.1 (' ' :: h.2) hcol,
      ih (fun x hx => hwf x (List.mem_cons_of_mem _ hx))]
    rw [trim_cons_space, htn, htv]

theorem parseRequestLine_render (method url : List Char)
    (hm1 : method ≠ []) (hm2 : method.all (fun c => !c.isWhitespace) = true)
    (hu1 : url ≠ []) (hu2 : trimChars url = url) :
    parseRequestLine (method ++ ' ' :: url) = some (method, url) := by
  cases method with
  | nil => exact absurd rfl hm1
  | cons m0 m' =>
    have hm0 : m0.isWhitespace = false := by
      simp only [List.all_cons, Bool.and_eq_true, Bool.not_eq_true'] at hm2
      exact hm2.1
    have h1 : ((m0 :: m') ++ ' ' :: url).dropWhile Char.isWhitespace
        = (m0 :: m') ++ ' ' :: url := by
      rw [List.cons_append, List.dropWhile_cons_of_neg (by simp [hm0])]
    have h2 : ((m0 :: m') ++ ' ' :: url).takeWhile (fun c => !c.isWhitespace)
        = m0 :: m' :=
      takeWhile_append_stop _ (m0 :: m') ' ' url hm2 (by decide)
    have h3 : ((m0 :: m') ++ ' ' :: url).drop (m0 :: m').length = ' ' :: url :=
      List.drop_left _ _
    simp only [parseRequestLine, h1, h2, h3]
    rw [trim_cons_space, hu2]
    rw [if_neg (by simp [List.isEmpty_iff, hu1])]

theorem renderHeaderLine_ne_nil (h : List Char × List Char) :
    (renderHeaderLine h).isEmpty = false := by
  unfold renderHeaderLine
  cases h1 : h.1 with
  | nil => rfl
  | cons a b => rfl

theorem splitLines_blob (hs : List (List Char × List Char)) (rest : List Char)
    (hnl : ∀ h ∈ hs, ('\n' : Char) ∉ renderHeaderLine h) :
    splitLines ((hs.map (fun h => renderHeaderLine h ++ ['\n'])).flatten ++ rest)
      = hs.map renderHeaderLine ++ splitLines rest := by
  induction hs with
  | nil => simp
  | cons h hs' ih =>
    simp only [List.map_cons, List.flatten_cons, List.append_assoc]
    have : renderHeaderLine h ++ (['\n']
        ++ ((hs'.map (fun h => renderHeaderLine h ++ ['\n'])).flatten ++ rest))
        = renderHeaderLine h ++ '\n'
          :: ((hs'.map (fun h => renderHeaderLine h ++ ['\n'])).flatten ++ rest) := rfl
    rw [this, splitLines_append _ _ (hnl h (List.mem_cons_self _ _)),
      ih (fun x hx => hnl x (List.mem_cons_of_mem _ hx))]
    rfl

theorem noNLCR_mem {s : List Char} (h : noNLCR s = true) :
    ('\n' : Char) ∉ s ∧ ('\r' : Char) ∉ s := by
  unfold noNLCR at h
  rw [List.all_eq_true] at h
  constructor
  · intro hm
    have := h _ hm
    simp at this
  · intro hm
    have := h _ hm
    simp at this

theorem ws_not_nlcr {c : Char} (h : c.isWhitespace = false) :
    c ≠ '\n' ∧ c ≠ '\r' := by
  constructor <;> intro hh <;> rw [hh] at h <;> simp [Char.isWhitespace] at h

/-- C8: a document whose header section lists any sequence of well-formed
header lines — including several with the same name up to case — parses
back to exactly that header list: one entry per line, original order, no
merging and no dropping (and method/url/body round-trip along). -/
theorem duplicate_headers_preserved :
    ∀ (method url : List Char) (hs : List (List Char × List Char)) (body : List Char),
      method ≠ [] → method.all (fun c => !c.isWhitespace) = true →
      url ≠ [] → trimChars url = url → noNLCR url = true →
      (∀ h ∈ hs, hdrWf h) →
      body.all (fun c => c ≠ '\r') = true →
      parseRequest (renderDoc method url hs body)
        = .ok { method := method, url := url, headers := hs, body := body } := by
  intro method url hs body hm1 hm2 hu1 hu2 hu3 hwf hbody
  have hmws : ∀ c ∈ method, c.isWhitespace = false := by
    intro c hc
    rw [List.all_eq_true] at hm2
    simpa using hm2 c hc
  have hreq_nl : ('\n' : Char) ∉ method ++ ' ' :: url := by
    intro hm
    rcases List.mem_append.mp hm with hm | hm
    · exact (ws_not_nlcr (hmws _ hm)).1 rfl
    · rcases List.mem_cons.mp hm with hm | hm
      · exact absurd hm (by decide)
      · exact (noNLCR_mem hu3).1 hm
  have hline_nl : ∀ h ∈ hs, ('\n' : Char) ∉ renderHeaderLine h := by
    intro h hh hm
    obtain ⟨_, _, _, hn1, hn2⟩ := hwf h hh
    unfold renderHeaderLine at hm
    rcases List.mem_append.mp hm with hm | hm
    · rcases List.mem_append.mp hm with hm | hm
      · exact (noNLCR_mem hn1).1 hm
      · rcases List.mem_cons.mp hm with hm | hm
        · exact absurd hm (by decide)
        · rcases List.mem_cons.mp hm with hm | hm
          · exact absurd hm (by decide)
          · exact absurd hm (List.not_mem_nil _)
    · exact (noNLCR_mem hn2).1 hm
  -- the split lines of the rendered document
  have hsplit : splitLines (renderDoc method url hs body)
      = (method ++ ' ' :: url)
        :: (hs.map renderHeaderLine ++ [] :: splitLines body) := by
    unfold renderDoc
    rw [splitLines_append _ _ hreq_nl, splitLines_blob hs _ hline_nl]
    rfl
  -- no carriage returns anywhere
  have hnocr : ∀ l ∈ splitLines (renderDoc method url hs body), ('\r' : Char) ∉ l := by
    rw [hsplit]
    intro l hl
    rcases List.mem_cons.mp hl with hl | hl
    · rw [hl]
      intro hm
      rcases List.mem_append.mp hm with hm | hm
      · exact (ws_not_nlcr (hmws _ hm)).2 rfl
      · rcases List.mem_cons.mp hm with hm | hm
        · exact absurd hm (by decide)
        · exact (noNLCR_mem hu3).2 hm
    · rcases List.mem_append.mp hl with hl | hl
      · obtain ⟨h, hh, rfl⟩ := List.mem_map.mp hl
        obtain ⟨_, _, _, hn1, hn2⟩ := hwf h hh
        intro hm
        unfold renderHeaderLine at hm
        rcases List.mem_append.mp hm with hm | hm
        · rcases List.mem_append.mp hm with hm | hm
          · exact (noNLCR_mem hn1).2 hm
          · rcases List.mem_cons.mp hm with hm | hm
            · exact absurd hm (by decide)
            · rcases List.mem_cons.mp hm with hm | hm
              · exact absurd hm (by decide)
              · exact absurd hm (List.not_mem_nil _)
        · exact (noNLCR_mem hn2).2 hm
      · rcases List.mem_cons.mp hl with hl | hl
        · rw [hl]
          exact List.not_mem_nil _
        · intro hm
          have hc := splitLines_chars body _ hl _ hm
          rw [List.all_eq_true] at hbody
          have := hbody _ hc
          simp at this
  simp only [parseRequest]
  rw [map_stripCR_id _ hnocr, hsplit]
  have hne : ((method ++ ' ' :: url).isEmpty) = false := by
    cases method with
    | nil => exact absurd rfl hm1
    | cons a b => rfl
  rw [List.dropWhile_cons_of_neg (by simp [hne])]
  dsimp only
  rw [parseRequestLine_render method url hm1 hm2 hu1 hu2]
  have hall : (hs.map renderHeaderLine).all (fun l => !l.isEmpty) = true := by
    rw [List.all_eq_true]
    intro x hx
    obtain ⟨h, _, rfl⟩ := List.mem_map.mp hx
    simp [renderHeaderLine_ne_nil h]
  have htk : (hs.map renderHeaderLine ++ [] :: splitLines body).takeWhile
      (fun l => !l.isEmpty) = hs.map renderHeaderLine :=
    takeWhile_append_stop _ _ _ _ hall (by rfl)
  have hdrop : (hs.map renderHeaderLine ++ [] :: splitLines body).drop
      (hs.map renderHeaderLine).length = [] :: splitLines body :=
    List.drop_left _ _
  dsimp only
  rw [htk, parseHeaderLines_render hs hwf]
  dsimp only
  rw [hdrop]
  dsimp only
  rw [joinLines_splitLines]

theorem duplicate_headers_preserved_witness :
    parseRequest (renderDoc (str "GET") (str "https://a.com")
        [(str "X-Tag", str "a"), (str "x-tag", str "b")] [])
      = .ok { method := str "GET", url := str "https://a.com",
              headers := [(str "X-Tag", str "a"), (str "x-tag", str "b")],
              body := [] }
    ∧ lowerName (str "X-Tag") = lowerName (str "x-tag") :=
  ⟨duplicate_headers_preserved (str "GET") (str "https://a.com")
      [(str "X-Tag", str "a"), (str "x-tag", str "b")] []
      (by decide) (by decide) (by decide) (by decide) (by decide)
      (by decide) (by decide),
   by decide⟩

/-! ### Shell tokenization inverts the serializer's quoting (towards C2) -/

/-- A bare (unquoted) emitted word must avoid whitespace, quotes and
backslashes to tokenize back to itself. -/
def noSpecialTok (s : List Char) : Bool :=
  s.all (fun c => ¬ isWsChar c ∧ c ≠ qs ∧ c ≠ '"' ∧ c ≠ '\\')

/-- Which emitted words decode faithfully: bare words must be non-empty and
special-character-free; quoted words are unrestricted. -/
def goodWord : WordEnc → Prop
  | .plain s => s ≠ [] ∧ noSpecialTok s = true
  | .dqw _ => True
  | .sqw _ => True

instance (w : WordEnc) : Decidable (goodWord w) := by
  cases w <;> simp only [goodWord] <;> infer_instance

/-- The words after the first, each preceded by a separating space. -/
def spaceWords (ws : List WordEnc) : List Char :=
  (ws.map (fun w => ' ' :: encodeWord w)).flatten

theorem renderWords_eq (w : WordEnc) (ws : List WordEnc) :
    renderWords (w :: ws) = encodeWord w ++ spaceWords ws := by
  induction ws generalizing w with
  | nil =>
    show renderWords [w] = encodeWord w ++ spaceWords []
    rw [show spaceWords ([] : List WordEnc) = [] from rfl, List.append_nil]
    rfl
  | cons w' ws' ih =>
    show encodeWord w ++ ' ' :: renderWords (w' :: ws') = _
    rw [ih w']
    rw [show spaceWords (w' :: ws') = ' ' :: (encodeWord w' ++ spaceWords ws') from rfl]

theorem noSpecialTok_head {c : Char} {s : List Char}
    (h : noSpecialTok (c :: s) = true) :
    isWsChar c = false ∧ c ≠ qs ∧ c ≠ '"' ∧ c ≠ '\\' ∧ noSpecialTok s = true := by
  simp only [noSpecialTok, List.all_cons, Bool.and_eq_true] at h
  have h1 := of_decide_eq_true h.1
  exact ⟨by simp [h1.1], h1.2.1, h1.2.2.1, h1.2.2.2, h.2⟩

theorem tokAux_plain_go (s : List Char) (hns : noSpecialTok s = true) :
    ∀ (rest cur : List Char),
      tokAux .plain (s ++ rest) cur true = tokAux .plain rest (cur ++ s) true := by
  induction s with
  | nil => intro rest cur; rw [List.nil_append, List.append_nil]
  | cons c s' ih =>
    intro rest cur
    obtain ⟨hw, hq, hd, hb, hs'⟩ := noSpecialTok_head hns
    rw [List.cons_append, tokAux.eq_def]
    dsimp only
    rw [if_neg (by simp [hw]), if_neg hq, if_neg hd, if_neg hb]
    rw [ih hs' rest (cur ++ [c]), List.append_assoc]
    rfl

theorem tokAux_plain_start (s : List Char) (hne : s ≠ [])
    (hns : noSpecialTok s = true) :
    ∀ (rest cur : List Char) (st : Bool),
      tokAux .plain (s ++ rest) cur st = tokAux .plain rest (cur ++ s) true := by
  cases s with
  | nil => exact absurd rfl hne
  | cons c s' =>
    intro rest cur st
    obtain ⟨hw, hq, hd, hb, hs'⟩ := noSpecialTok_head hns
    rw [List.cons_append, tokAux.eq_def]
    dsimp only
    rw [if_neg (by simp [hw]), if_neg hq, if_neg hd, if_neg hb]
    rw [tokAux_plain_go s' hs' rest (cur ++ [c]), List.append_assoc]
    rfl

theorem tokAux_escD (u : List Char) :
    ∀ (rest cur : List Char) (st : Bool),
      tokAux .double (escD u ++ '"' :: rest) cur st
        = tokAux .plain rest (cur ++ u) true := by
  induction u with
  | nil =>
    intro rest cur st
    show tokAux .double ('"' :: rest) cur st = tokAux .plain rest (cur ++ []) true
    rw [tokAux.eq_def]
    simp
  | cons c u' ih =>
    intro rest cur st
    have hesc : escD (c :: u')
        = if c = '"' ∨ c = '\\' then '\\' :: c :: escD u' else c :: escD u' := rfl
    by_cases hc : c = '"' ∨ c = '\\'
    · rw [hesc, if_pos hc, List.cons_append, List.cons_append, tokAux.eq_def]
      dsimp only
      rw [if_neg (by decide : ¬ ('\\' : Char) = '"'),
        if_pos (rfl : ('\\' : Char) = '\\'), if_pos hc]
      rw [ih rest (cur ++ [c]) true, List.append_assoc]
      rfl
    · push_neg at hc
      rw [hesc, if_neg (by simp [hc.1, hc.2]), List.cons_append, tokAux.eq_def]
      dsimp only
      rw [if_neg hc.1, if_neg hc.2]
      rw [ih rest (cur ++ [c]) true, List.append_assoc]
      rfl

theorem tokAux_dquote (u : List Char) (rest cur : List Char) (st : Bool) :
    tokAux .plain (dquote u ++ rest) cur st = tokAux .plain rest (cur ++ u) true := by
  have hshape : dquote u ++ rest = '"' :: (escD u ++ '"' :: rest) := by
    show ('"' :: (escD u ++ ['"'])) ++ rest = _
    rw [List.cons_append, List.append_assoc]
    rfl
  rw [hshape, tokAux.eq_def]
  dsimp only
  rw [if_neg (by decide : ¬ isWsChar '"' = true),
    if_neg (by decide : ¬ ('"' : Char) = qs), if_pos (rfl : ('"' : Char) = '"')]
  exact tokAux_escD u rest cur true

theorem tokAux_escS (b : List Char) :
    ∀ (rest cur : List Char) (st : Bool),
      tokAux .single (escS b ++ qs :: rest) cur st
        = tokAux .plain rest (cur ++ b) true := by
  induction b with
  | nil =>
    intro rest cur st
    show tokAux .single (qs :: rest) cur st = tokAux .plain rest (cur ++ []) true
    rw [tokAux.eq_def]
    simp
  | cons c b' ih =>
    intro rest cur st
    have hesc : escS (c :: b')
        = if c = qs then qs :: '\\' :: qs :: qs :: escS b' else c :: escS b' := rfl
    by_cases hc : c = qs
    · rw [hesc, if_pos hc, List.cons_append, List.cons_append, List.cons_append,
        List.cons_append]
      rw [tokAux.eq_def]
      dsimp only
      rw [if_pos (rfl : qs = qs)]
      rw [tokAux.eq_def]
      dsimp only
      rw [if_neg (by decide : ¬ isWsChar '\\' = true),
        if_neg (by decide : ¬ ('\\' : Char) = qs),
        if_neg (by decide : ¬ ('\\' : Char) = '"'),
        if_pos (rfl : ('\\' : Char) = '\\')]
      rw [tokAux.eq_def]
      dsimp only
      rw [if_neg (by decide : ¬ isWsChar qs = true),
        if_pos (rfl : qs = qs)]
      rw [ih rest (cur ++ [qs]) true, List.append_assoc, hc]
      rfl
    · rw [hesc, if_neg hc, List.cons_append, tokAux.eq_def]
      dsimp only
      rw [if_neg hc]
      rw [ih rest (cur ++ [c]) true, List.append_assoc]
      rfl

theorem tokAux_squote (b : List Char) (rest cur : List Char) (st : Bool) :
    tokAux .plain (squote b ++ rest) cur st = tokAux .plain rest (cur ++ b) true := by
  have hshape : squote b ++ rest = qs :: (escS b ++ qs :: rest) := by
    show (qs :: (escS b ++ [qs])) ++ rest = _
    rw [List.cons_append, List.append_assoc]
    rfl
  rw [hshape, tokAux.eq_def]
  dsimp only
  rw [if_neg (by decide : ¬ isWsChar qs = true), if_pos (rfl : qs = qs)]
  exact tokAux_escS b rest cur true

theorem tokAux_word (w : WordEnc) (hw : goodWord w) (rest cur : List Char)
    (st : Bool) :
    tokAux .plain (encodeWord w ++ rest) cur st
      = tokAux .plain rest (cur ++ decodeWord w) true := by
  cases w with
  | plain s => exact tokAux_plain_start s hw.1 hw.2 rest cur st
  | dqw s => exact tokAux_dquote s rest cur st
  | sqw s => exact tokAux_squote s rest cur st

theorem tokAux_spine :
    ∀ (ws : List WordEnc) (cur : List Char), (∀ w ∈ ws, goodWord w) →
      tokAux .plain (spaceWords ws) cur true = some (cur :: ws.map decodeWord) := by
  intro ws
  induction ws with
  | nil =>
    intro cur _
    rfl
  | cons w ws' ih =>
    intro cur hgw
    rw [show spaceWords (w :: ws') = ' ' :: (encodeWord w ++ spaceWords ws') from rfl]
    rw [tokAux.eq_def]
    dsimp only
    rw [if_pos (by decide : isWsChar ' ' = true), if_pos (rfl : true = true)]
    rw [tokAux_word w (hgw w (List.mem_cons_self _ _)) _ [] false,
      List.nil_append, ih _ (fun x hx => hgw x (List.mem_cons_of_mem _ hx))]
    rfl

theorem tokenizeCmd_renderWords (ws : List WordEnc) (hne : ws ≠ [])
    (hgw : ∀ w ∈ ws, goodWord w) :
    tokenizeCmd (renderWords ws) = some (ws.map decodeWord) := by
  cases ws with
  | nil => exact absurd rfl hne
  | cons w ws' =>
    unfold tokenizeCmd
    rw [renderWords_eq w ws',
      tokAux_word w (hgw w (List.mem_cons_self _ _)) _ [] false,
      List.nil_append, tokAux_spine ws' _ (fun x hx => hgw x (List.mem_cons_of_mem _ hx))]
    rfl

/-! ### Flag-reading steps of the curl bridge -/

theorem parseCurl_X (m : List Char) (rest : List (List Char)) (st : CurlState) :
    parseCurlTokens (str "-X" :: m :: rest) st
      = parseCurlTokens rest { st with method := some m } := by
  rw [parseCurlTokens.eq_def]
  dsimp only
  rw [if_pos (by decide : (str "-X").head? = some '-'),
    if_pos (by decide : str "-X" = str "-X" ∨ str "-X" = str "--request")]

theorem parseCurl_H (n v : List Char) (hcol : (':' : Char) ∉ n)
    (htn : trimChars n = n) (htv : trimChars v = v)
    (rest : List (List Char)) (st : CurlState) :
    parseCurlTokens (str "-H" :: (n ++ str ": " ++ v) :: rest) st
      = parseCurlTokens rest { st with headers := st.headers ++ [(n, v)] } := by
  rw [show n ++ str ": " ++ v = n ++ ':' :: ' ' :: v from by
    rw [List.append_assoc]; rfl]
  rw [parseCurlTokens.eq_def]
  dsimp only
  rw [if_pos (by decide : (str "-H").head? = some '-'),
    if_neg (by decide : ¬ (str "-H" = str "-X" ∨ str "-H" = str "--request")),
    if_pos (by decide : str "-H" = str "-H" ∨ str "-H" = str "--header")]
  rw [splitFirst_first n (' ' :: v) hcol]
  dsimp only
  rw [htn, trim_cons_space, htv]

theorem parseCurl_d (b : List Char) (rest : List (List Char)) (st : CurlState) :
    parseCurlTokens (str "-d" :: b :: rest) st
      = parseCurlTokens rest { st with body := some b } := by
  rw [parseCurlTokens.eq_def]
  dsimp only
  rw [if_pos (by decide : (str "-d").head? = some '-'),
    if_neg (by decide : ¬ (str "-d" = str "-X" ∨ str "-d" = str "--request")),
    if_neg (by decide : ¬ (str "-d" = str "-H" ∨ str "-d" = str "--header")),
    if_pos (by decide : str "-d" = str "-d" ∨ str "-d" = str "--data"
      ∨ str "-d" = str "--data-raw" ∨ str "-d" = str "--data-binary")]

theorem parseCurl_url (u : List Char) (hu : u.head? ≠ some '-')
    (rest : List (List Char)) (st : CurlState) :
    parseCurlTokens (u :: rest) st
      = parseCurlTokens rest { st with url := some u } := by
  rw [parseCurlTokens.eq_def]
  dsimp only
  rw [if_neg hu]

theorem parseCurl_headers (mo uo bo : Option (List Char)) (fg : Bool) :
    ∀ (hs : List (List Char × List Char)) (acc : List (List Char × List Char))
      (rest : List (List Char)),
      (∀ h ∈ hs, (':' : Char) ∉ h.1 ∧ trimChars h.1 = h.1 ∧ trimChars h.2 = h.2) →
      parseCurlTokens
          ((hs.map (fun h => [str "-H", renderHeaderLine h])).flatten ++ rest)
          ⟨mo, uo, acc, bo, fg⟩
        = parseCurlTokens rest ⟨mo, uo, acc ++ hs, bo, fg⟩ := by
  intro hs
  induction hs with
  | nil =>
    intro acc rest _
    show parseCurlTokens rest ⟨mo, uo, acc, bo, fg⟩ = _
    rw [List.append_nil]
  | cons h hs' ih =>
    intro acc rest hwf
    obtain ⟨hcol, htn, htv⟩ := hwf h (List.mem_cons_self _ _)
    rw [show (((h :: hs').map (fun h => [str "-H", renderHeaderLine h])).flatten ++ rest)
        = str "-H" :: renderHeaderLine h
          :: ((hs'.map (fun h => [str "-H", renderHeaderLine h])).flatten ++ rest)
      from by rw [List.map_cons, List.flatten_cons, List.append_assoc]; rfl]
    rw [show renderHeaderLine h = h.1 ++ str ": " ++ h.2 from rfl]
    rw [parseCurl_H h.1 h.2 hcol htn htv]
    show parseCurlTokens _ ⟨mo, uo, acc ++ [(h.1, h.2)], bo, fg⟩ = _
    rw [ih (acc ++ [(h.1, h.2)]) rest (fun x hx => hwf x (List.mem_cons_of_mem _ hx))]
    rw [List.append_assoc]
    rfl

theorem decode_hdr_blob (hs : List (List Char × List Char)) :
    ((hs.map (fun h => [WordEnc.plain (str "-H"),
        WordEnc.dqw (renderHeaderLine h)])).flatten).map decodeWord
      = (hs.map (fun h => [str "-H", renderHeaderLine h])).flatten := by
  induction hs with
  | nil => rfl
  | cons h hs' ih =>
    simp only [List.map_cons, List.flatten_cons, List.map_append, ih]
    rfl

theorem goodWord_curlWords (R : Request) (hm1 : R.method ≠ [])
    (hm2 : noSpecialTok R.method = true) :
    ∀ w ∈ curlWords R, goodWord w := by
  intro w hw
  simp only [curlWords, List.mem_append, List.mem_cons] at hw
  rcases hw with ((hw | hw | hw | hw | hw) | hw) | hw
  · rw [hw]; exact ⟨by decide, by decide⟩
  · rw [hw]; exact ⟨by decide, by decide⟩
  · rw [hw]; exact ⟨hm1, hm2⟩
  · rw [hw]; exact trivial
  · exact absurd hw (List.not_mem_nil w)
  · rw [List.mem_flatten] at hw
    obtain ⟨l, hl, hwl⟩ := hw
    obtain ⟨h, _, rfl⟩ := List.mem_map.mp hl
    rcases List.mem_cons.mp hwl with hwl | hwl
    · rw [hwl]; exact ⟨by decide, by decide⟩
    · rcases List.mem_cons.mp hwl with hwl | hwl
      · rw [hwl]; exact trivial
      · exact absurd hwl (List.not_mem_nil w)
  · by_cases hbe : R.body.isEmpty
    · rw [if_pos hbe] at hw
      exact absurd hw (List.not_mem_nil w)
    · rw [if_neg hbe] at hw
      rcases List.mem_cons.mp hw with hw | hw
      · rw [hw]; exact ⟨by decide, by decide⟩
      · rcases List.mem_cons.mp hw with hw | hw
        · rw [hw]; exact trivial
        · exact absurd hw (List.not_mem_nil w)

/-- C2 (amended): the curl round-trip law for well-formed requests — method
non-empty without whitespace/quote/backslash characters, URL not starting
with `-`, trimmed colon-free header names, trimmed header values, and no
`{{...}}` tokens in url, header values or body. Then
`fromCurl (toCurl R E) = R` exactly, for every environment. -/
theorem curl_roundtrip_wf :
    ∀ (R : Request) (E : EnvironmentSet),
      R.method ≠ [] → noSpecialTok R.method = true →
      R.url.head? ≠ some '-' → containsToken R.url = false →
      (∀ h ∈ R.headers, (':' : Char) ∉ h.1 ∧ trimChars h.1 = h.1
        ∧ trimChars h.2 = h.2 ∧ containsToken h.2 = false) →
      containsToken R.body = false →
      fromCurl (toCurl R E) = .ok R := by
  intro R E hm1 hm2 hu1 hu2 hh hb
  obtain ⟨Rm, Ru, Rh, Rb⟩ := R
  simp only at hm1 hm2 hu1 hu2 hh hb
  have hres : (resolveVariables E ⟨Rm, Ru, Rh, Rb⟩).req = ⟨Rm, Ru, Rh, Rb⟩ := by
    simp only [resolveVariables]
    rw [headers_resolve_req (activeMap E) Rh (fun h hx => (hh h hx).2.2.2),
      resolveString_id (activeMap E) Ru hu2, resolveString_id (activeMap E) Rb hb]
  unfold toCurl
  rw [hres]
  have hgw := goodWord_curlWords ⟨Rm, Ru, Rh, Rb⟩ hm1 hm2
  have hwne : curlWords ⟨Rm, Ru, Rh, Rb⟩ ≠ [] := by
    simp [curlWords]
  simp only [fromCurl]
  rw [tokenizeCmd_renderWords _ hwne hgw]
  have hdec : (curlWords ⟨Rm, Ru, Rh, Rb⟩).map decodeWord
      = str "curl" :: str "-X" :: Rm :: Ru ::
        ((Rh.map (fun h => [str "-H", renderHeaderLine h])).flatten
          ++ (if Rb.isEmpty then [] else [str "-d", Rb])) := by
    simp only [curlWords, List.map_append, decode_hdr_blob]
    by_cases hbe : Rb.isEmpty
    · rw [if_pos hbe, if_pos hbe]
      rfl
    · rw [if_neg hbe, if_neg hbe]
      rfl
  rw [hdec]
  dsimp only
  rw [if_pos (rfl : str "curl" = str "curl")]
  rw [parseCurl_X Rm _ initCurlState, parseCurl_url Ru hu1]
  rw [parseCurl_headers _ _ _ _ Rh _ _
    (fun h hx => ⟨(hh h hx).1, (hh h hx).2.1, (hh h hx).2.2.1⟩)]
  by_cases hbe : Rb.isEmpty
  · rw [if_pos hbe]
    have hrb : Rb = [] := by simpa [List.isEmpty_iff] using hbe
    subst hrb
    rfl
  · rw [if_neg hbe]
    rw [parseCurl_d Rb []]
    rfl

theorem curl_roundtrip_wf_witness :
    fromCurl (toCurl
        { method := str "POST", url := str "https://x/y",
          headers := [(str "Content-Type", str "application/json")],
          body := str "hello world" }
        { base := [], overlay := none })
      = Except.ok { method := str "POST", url := str "https://x/y",
                    headers := [(str "Content-Type", str "application/json")],
                    body := str "hello world" } :=
  curl_roundtrip_wf
    { method := str "POST", url := str "https://x/y",
      headers := [(str "Content-Type", str "application/json")],
      body := str "hello world" }
    { base := [], overlay := none }
    (by decide) (by decide) (by decide) (by decide) (by decide) (by decide)

/-- C2 as stated is false: a request whose url contains a *defined* (hence
not unresolved) variable token satisfies the claim's precondition, yet
serialization substitutes the token, so parsing the command back yields the
substituted url, not the original request. -/
theorem curl_roundtrip_counterexample :
    ((resolveVariables { base := [(str "A", str "x")], overlay := none }
        { method := str "GET",
          url := str "http://a/" ++ lb :: lb :: (str "A" ++ rb :: rb :: []),
          headers := [], body := [] }).urlUndef = []
      ∧ (resolveVariables { base := [(str "A", str "x")], overlay := none }
          { method := str "GET",
            url := str "http://a/" ++ lb :: lb :: (str "A" ++ rb :: rb :: []),
            headers := [], body := [] }).headerUndef = []
      ∧ (resolveVariables { base := [(str "A", str "x")], overlay := none }
          { method := str "GET",
            url := str "http://a/" ++ lb :: lb :: (str "A" ++ rb :: rb :: []),
            headers := [], body := [] }).bodyUndef = [])
    ∧ fromCurl (toCurl
        { method := str "GET",
          url := str "http://a/" ++ lb :: lb :: (str "A" ++ rb :: rb :: []),
          headers := [], body := [] }
        { base := [(str "A", str "x")], overlay := none })
      ≠ Except.ok
        { method := str "GET",
          url := str "http://a/" ++ lb :: lb :: (str "A" ++ rb :: rb :: []),
          headers := [], body := [] } := by
  decide

end Mercury
